import Mathlib

/-!
Verification of `mongodb_json_converter.py`.

The Python module normalizes a MongoDB JSON export: each line is scanned with
the regular expression `(?P<expression>[A-Z]{1}[a-zA-Z]+\((?P<value>.*)\))`;
on a match, `re.sub(re.escape(expression), value, line)` replaces the matched
constructor expression by its payload.  A file pipeline (`update_json_file`)
maps this normalizer over the lines of a file, and `read_udpated_json_file`
projects four fixed paths out of the parsed document.

Strings are modelled as `List Char`.  The specific regular expression is
embedded directly: `matchHere` is the anchored match (uppercase letter, one or
more letters, a literal parenthesis, a greedy dot-star that cannot cross a
newline, and the final closing parenthesis reached by backtracking, i.e. the
last viable one), and `regexSearch` is Python's `re.search` (leftmost match).
`re.sub` with an escaped pattern is literal find-and-replace-all of the
matched text, but its replacement string is a *template*: backslash escapes in
the payload are interpreted (`expandTemplate`), and invalid escapes raise,
which is modelled by `Option`.
-/

namespace MongoConv

/-! ## The regular expression `[A-Z]{1}[a-zA-Z]+\((.*)\)` -/

/-- Split a list at its last `')'`: `splitLastParen l = some (pre, post)` with
`l = pre ++ ')' :: post` and no `')'` in `post`; `none` when there is no `')'`.
This is how the greedy `.*` followed by `\)` picks its closing parenthesis. -/
def splitLastParen : List Char → Option (List Char × List Char)
  | [] => none
  | c :: rest =>
    match splitLastParen rest with
    | some (pre, post) => some (c :: pre, post)
    | none => if c = ')' then some ([], rest) else none

/-- Anchored match of `RE_MONGODB_OBJECT` at the head of the string.  Returns
`(expression, value)`: the whole matched text and the payload group.  The
identifier is one uppercase letter (`[A-Z]{1}`) followed by the maximal run of
letters (`[a-zA-Z]+`, greedy; backtracking cannot help since `(` is not a
letter), then `\(`, then `.*` (greedy, cannot cross a newline) and `\)`, so
the payload ends at the last `')'` before the end of line. -/
def matchHere : List Char → Option (List Char × List Char)
  | [] => none
  | c :: rest =>
    if c.isUpper then
      if (rest.takeWhile Char.isAlpha).isEmpty then none
      else
        match rest.dropWhile Char.isAlpha with
        | [] => none
        | d :: afterParen =>
          if d = '(' then
            match splitLastParen (afterParen.takeWhile (fun ch => ch != '\n')) with
            | some (payload, _) =>
              some (c :: (rest.takeWhile Char.isAlpha ++ '(' :: (payload ++ [')'])), payload)
            | none => none
          else none
    else none

/-- Python's `re.search`: try the anchored match at each position from the
left, returning the first (leftmost) success. -/
def regexSearch : List Char → Option (List Char × List Char)
  | [] => none
  | c :: rest =>
    match matchHere (c :: rest) with
    | some m => some m
    | none => regexSearch rest

/-! ## `re.sub` with an escaped pattern -/

/-- Character escapes recognized in a `re.sub` replacement template. -/
def charEscape (c : Char) : Option Char :=
  if c = 'a' then some (Char.ofNat 7)
  else if c = 'b' then some (Char.ofNat 8)
  else if c = 'f' then some (Char.ofNat 12)
  else if c = 'n' then some (Char.ofNat 10)
  else if c = 'r' then some (Char.ofNat 13)
  else if c = 't' then some (Char.ofNat 9)
  else if c = 'v' then some (Char.ofNat 11)
  else if c = '\\' then some '\\'
  else none

def isOctalDigit (c : Char) : Bool := '0' ≤ c && c ≤ '7'

def octVal (c : Char) : Nat := c.toNat - '0'.toNat

/-- One step of template processing: consume one template token (a plain
character or one escape sequence) and continue through `recur` on the rest. -/
def expandStep (whole : List Char) (recur : List Char → Option (List Char)) :
    List Char → Option (List Char)
  | [] => some []
  | c :: rest =>
    if c ≠ '\\' then (recur rest).map (fun t => c :: t)
    else
      match rest with
      | [] => none
      | e :: rs =>
        match charEscape e with
        | some ch => (recur rs).map (fun t => ch :: t)
        | none =>
          if e = 'g' then
            match rs with
            | '<' :: '0' :: '>' :: rs2 => (recur rs2).map (fun t => whole ++ t)
            | _ => none
          else if e = '0' then
            match rs with
            | d1 :: rs2 =>
              if isOctalDigit d1 then
                match rs2 with
                | d2 :: rs3 =>
                  if isOctalDigit d2 then
                    (recur rs3).map (fun t => Char.ofNat (8 * octVal d1 + octVal d2) :: t)
                  else (recur rs2).map (fun t => Char.ofNat (octVal d1) :: t)
                | [] => some [Char.ofNat (octVal d1)]
              else (recur rs).map (fun t => Char.ofNat 0 :: t)
            | [] => some [Char.ofNat 0]
          else if e.isDigit then none
          else if e.isAlpha then none
          else (recur rs).map (fun t => '\\' :: e :: t)

/-- Fuelled worker for `expandTemplate`; with `fuel ≥ length` of the template
the fuel never runs out, since every step consumes at least one character. -/
def expandTemplateFuel (whole : List Char) : Nat → List Char → Option (List Char)
  | 0, s =>
    match s with
    | [] => some []
    | _ :: _ => none
  | fuel + 1, s => expandStep whole (expandTemplateFuel whole fuel) s

/-- Python's processing of a `re.sub` replacement template (`parse_template`):
`\n`, `\t`, ... become control characters, `\\` a backslash, `\0` (with up to
two further octal digits) an octal escape, `\g<0>` inserts the whole match
(`whole`; the escaped pattern has no other groups; other group references are
invalid), any numbered group reference is an invalid group reference, an
unknown escape of an ASCII letter is an error, a backslash before any other
character is kept literally, and a trailing lone backslash is an error.
Errors (`re.error` raised) are `none`. -/
def expandTemplate (whole template : List Char) : Option (List Char) :=
  expandTemplateFuel whole template.length template

/-- Replace every (leftmost, non-overlapping) occurrence of `pat` in the
string by `repl`, fuelled; with `fuel ≥ s.length` and `pat ≠ []` this is
exactly `re.sub(re.escape(pat), repl, s)` after template expansion of `repl`. -/
def replaceAllFuel (pat repl : List Char) : Nat → List Char → List Char
  | _, [] => []
  | 0, s => s
  | fuel + 1, c :: rest =>
    if pat.isPrefixOf (c :: rest) then
      repl ++ replaceAllFuel pat repl fuel ((c :: rest).drop pat.length)
    else c :: replaceAllFuel pat repl fuel rest

/-- Literal find-and-replace-all of `pat` by `repl` in `s`. -/
def replaceAll (pat repl s : List Char) : List Char :=
  replaceAllFuel pat repl s.length s

/-! ## The line normalizer `fix_mongodb_objects` -/

/-- the body of `replace_mongodb_object`:
`re.sub(re.escape(expression), value, line)`.  The pattern is escaped, so
locating the text is literal; the value is a replacement template, whose
expansion can raise (`none`). -/
def replace_mongodb_object (line expression value : List Char) : Option (List Char) :=
  (expandTemplate expression value).map (fun repl => replaceAll expression repl line)

/-- the body of `detect_mongodb_object`: search the line with
`RE_MONGODB_OBJECT`; on a match hand `expression`/`value` to
`replace_mongodb_object`, otherwise return the line. -/
def detect_mongodb_object (line : List Char) : Option (List Char) :=
  match regexSearch line with
  | some (expression, value) => replace_mongodb_object line expression value
  | none => some line

/-- `fix_mongodb_objects` (the spec's `normalize_line`): `none` models a
raised exception. -/
def fix_mongodb_objects (line : List Char) : Option (List Char) :=
  detect_mongodb_object line

/-- Spec-side comparison definition, following the spec's words for the
substitution step only: "the result equals the line with the matched
`Identifier(Payload)` text replaced, as plain characters, by the `Payload`
text".  It differs from the code exactly in not template-expanding the
payload. -/
def literalNormalize (line : List Char) : List Char :=
  match regexSearch line with
  | some (expression, value) => replaceAll expression value line
  | none => line

/-- The spec's notion of a line containing a constructor-style substring: an
uppercase letter, one or more further letters, an opening parenthesis, a
payload closing on the same line. -/
def HasConstructor (l : List Char) : Prop :=
  ∃ pre u ident v post,
    l = pre ++ u :: (ident ++ '(' :: (v ++ ')' :: post)) ∧
    u.isUpper = true ∧ ident ≠ [] ∧ (∀ c ∈ ident, c.isAlpha = true) ∧
    (∀ c ∈ v, c ≠ '\n')

/-- True when the line's match (if any) has a payload with no backslash, so
that template expansion is the identity. -/
def payloadBackslashFree (l : List Char) : Bool :=
  match regexSearch l with
  | some (_, v) => v.all (fun c => c != '\\')
  | none => true

/-! ## The file pipeline `update_json_file` -/

/-- Concatenation of a sequence of lines into one file content. -/
def concatAll : List (List Char) → List Char
  | [] => []
  | l :: ls => l ++ concatAll ls

/-- A file system: map from path to content (`none` = no such file). -/
abbrev FS : Type := String → Option (List Char)

def fsWrite (fs : FS) (p : String) (c : List Char) : FS :=
  fun q => if q = p then some c else fs q

/-- One `fp_write.write(line)` call: append to the file at `p`. -/
def writeLine (fs : FS) (p : String) (line : List Char) : FS :=
  fsWrite fs p (((fs p).getD []) ++ line)

/-- The `for line in lines_fixed: fp_write.write(line)` loop. -/
def writeLinesLoop (p : String) : FS → List (List Char) → FS
  | fs, [] => fs
  | fs, l :: ls => writeLinesLoop p (writeLine fs p l) ls

/-- Python's `fp.readlines()`: split into lines, each keeping its trailing
newline; a last fragment without a newline is kept as a final line. -/
def pyReadlinesAux : List Char → List Char → List (List Char)
  | acc, [] => if acc.isEmpty then [] else [acc.reverse]
  | acc, c :: rest =>
    if c = '\n' then (acc.reverse ++ ['\n']) :: pyReadlinesAux [] rest
    else pyReadlinesAux (c :: acc) rest

def pyReadlines (s : List Char) : List (List Char) := pyReadlinesAux [] s

/-- Number of lines of a file content. -/
def countLines (s : List Char) : Nat := (pyReadlines s).length

/-- Python's `list(map(f, xs))` over a fallible `f`: every element is forced
before the list is produced; the first exception propagates. -/
def sequenceOpt : List (Option (List Char)) → Option (List (List Char))
  | [] => some []
  | none :: _ => none
  | some a :: rest => (sequenceOpt rest).map (fun l => a :: l)

/-- `update_json_file` (the spec's `convert_file`): read all lines of `path`,
normalize each (`list(map(fix_mongodb_objects, lines))` forces every line
before the output is opened), then open `output_path` for writing (truncating
it) and write each fixed line in order.  `none` models a raised exception:
missing input file, or a normalization error, both occurring before the
output file is touched. -/
def update_json_file (fs : FS) (path output_path : String) : Option FS :=
  match fs path with
  | none => none
  | some content =>
    let lines := pyReadlines content
    match sequenceOpt (lines.map fix_mongodb_objects) with
    | none => none
    | some lines_fixed =>
      some (writeLinesLoop output_path (fsWrite fs output_path []) lines_fixed)

/-- Spec-side comparison definition following the File Pipeline contract's
words: read the source as a sequence of lines preserving line terminators,
apply the Line Normalizer to every line independently in order, and write the
resulting sequence verbatim (their concatenation) to the destination path. -/
def convert_file_spec (fs : FS) (input_path output_path : String) : Option FS :=
  match fs input_path with
  | none => none
  | some content =>
    match (pyReadlines content).mapM fix_mongodb_objects with
    | none => none
    | some outLines => some (fsWrite fs output_path (concatAll outLines))

/-! ## The document loader `read_udpated_json_file` -/

/-- Python values that can appear in a parsed JSON document. -/
inductive PyVal where
  | none_ : PyVal
  | bool : Bool → PyVal
  | num : Int → PyVal
  | str : String → PyVal
  | list : List PyVal → PyVal
  | dict : List (String × PyVal) → PyVal

/-- Exceptions that the projection can raise. -/
inductive PyErr where
  | attributeError : PyErr
  | indexError : PyErr
  | typeError : PyErr

/-- First-match association-list lookup (Python dict lookup). -/
def lookupKey (k : String) : List (String × PyVal) → Option PyVal
  | [] => none
  | (k1, v) :: rest => if k1 = k then some v else lookupKey k rest

/-- Python `x.get(k)`: defined on dicts only, defaulting a missing key to
`None`; calling `.get` on anything else (in particular on `None`) raises
`AttributeError`. -/
def pyGet : PyVal → String → Except PyErr PyVal
  | PyVal.dict fields, k => Except.ok ((lookupKey k fields).getD PyVal.none_)
  | _, _ => Except.error PyErr.attributeError

/-- Python `x[0]`: head of a non-empty list, `IndexError` on an empty list,
first character of a non-empty string, `TypeError` on `None` and the rest. -/
def pyIndex0 : PyVal → Except PyErr PyVal
  | PyVal.list (x :: _) => Except.ok x
  | PyVal.list [] => Except.error PyErr.indexError
  | PyVal.str s => if s.isEmpty then Except.error PyErr.indexError
      else Except.ok (PyVal.str (s.take 1))
  | _ => Except.error PyErr.typeError

/-- The four projected fields, in the order the `row` dict literal builds
them. -/
structure ProjRow where
  customer_id : PyVal
  rewards_amount : PyVal
  rewards_currency : PyVal
  grant_time : PyVal

def kMember : String := "member"
def kCustomerId : String := "customer_id"
def kRewards : String := "rewards"
def kAmount : String := "amount"
def kCurrency : String := "currency"
def kRewardsResults : String := "rewards_results"
def kGrantTime : String := "grant_time"

/-- `read_udpated_json_file`, applied to the parsed document: build the row
dict, evaluating the four values in source order (`rewards` is fetched twice,
as in the source).  Any raised exception propagates as `Except.error`. -/
def read_udpated_json_file (result : PyVal) : Except PyErr ProjRow :=
  match pyGet result kMember with
  | Except.error e => Except.error e
  | Except.ok m =>
    match pyGet m kCustomerId with
    | Except.error e => Except.error e
    | Except.ok cid =>
      match pyGet result kRewards with
      | Except.error e => Except.error e
      | Except.ok r1 =>
        match pyGet r1 kAmount with
        | Except.error e => Except.error e
        | Except.ok amt =>
          match pyGet result kRewards with
          | Except.error e => Except.error e
          | Except.ok r2 =>
            match pyGet r2 kCurrency with
            | Except.error e => Except.error e
            | Except.ok cur =>
              match pyGet result kRewardsResults with
              | Except.error e => Except.error e
              | Except.ok rr =>
                match pyIndex0 rr with
                | Except.error e => Except.error e
                | Except.ok elt =>
                  match pyGet elt kGrantTime with
                  | Except.error e => Except.error e
                  | Except.ok gt => Except.ok ⟨cid, amt, cur, gt⟩

/-! ## Basic list helpers -/

lemma isPrefixOf_iff_ex {xs ys : List Char} :
    xs.isPrefixOf ys = true ↔ ∃ t, ys = xs ++ t := by
  induction xs generalizing ys with
  | nil => simp [List.isPrefixOf]
  | cons x xs ih =>
    cases ys with
    | nil => simp [List.isPrefixOf]
    | cons y ys =>
      simp only [List.isPrefixOf, Bool.and_eq_true, beq_iff_eq, ih, List.cons_append,
        List.cons.injEq]
      constructor
      · rintro ⟨rfl, t, rfl⟩; exact ⟨t, rfl, rfl⟩
      · rintro ⟨t, rfl, rfl⟩; exact ⟨rfl, t, rfl⟩

lemma mem_of_isPrefixOf {xs ys : List Char} {a : Char}
    (h : xs.isPrefixOf ys = true) (ha : a ∈ xs) : a ∈ ys := by
  rcases isPrefixOf_iff_ex.1 h with ⟨t, rfl⟩
  exact List.mem_append_left t ha

lemma mem_takeWhile_pred {p : Char → Bool} : ∀ {l : List Char} {c : Char},
    c ∈ l.takeWhile p → p c = true := by
  intro l
  induction l with
  | nil => intro c h; simp [List.takeWhile] at h
  | cons a l ih =>
    intro c h
    by_cases ha : p a
    · rw [List.takeWhile_cons, if_pos ha] at h
      rcases List.mem_cons.1 h with rfl | h2
      · exact ha
      · exact ih h2
    · rw [List.takeWhile_cons, if_neg ha] at h
      simp at h

lemma takeWhile_append_all {p : Char → Bool} {l : List Char}
    (h : ∀ c ∈ l, p c = true) (t : List Char) :
    (l ++ t).takeWhile p = l ++ t.takeWhile p := by
  induction l with
  | nil => simp
  | cons a l ih =>
    have ha : p a = true := h a (List.mem_cons_self a l)
    simp only [List.cons_append, List.takeWhile_cons, if_pos ha]
    rw [ih (fun c hc => h c (List.mem_cons_of_mem a hc))]

lemma dropWhile_append_all {p : Char → Bool} {l : List Char}
    (h : ∀ c ∈ l, p c = true) (t : List Char) :
    (l ++ t).dropWhile p = t.dropWhile p := by
  induction l with
  | nil => simp
  | cons a l ih =>
    have ha : p a = true := h a (List.mem_cons_self a l)
    simp only [List.cons_append, List.dropWhile_cons, if_pos ha]
    exact ih (fun c hc => h c (List.mem_cons_of_mem a hc))

lemma takeWhile_all_self {p : Char → Bool} {l : List Char}
    (h : ∀ c ∈ l, p c = true) : l.takeWhile p = l := by
  have := takeWhile_append_all h []
  simpa using this

lemma dropWhile_nil_or_head {p : Char → Bool} (l : List Char) :
    l.dropWhile p = [] ∨ ∃ h t, l.dropWhile p = h :: t ∧ p h = false := by
  induction l with
  | nil => exact Or.inl rfl
  | cons a l ih =>
    by_cases ha : p a
    · rw [List.dropWhile_cons, if_pos ha]; exact ih
    · rw [List.dropWhile_cons, if_neg ha]
      exact Or.inr ⟨a, l, rfl, by simpa using ha⟩

/-! ## `splitLastParen` -/

lemma splitLastParen_none {l : List Char} (h : splitLastParen l = none) : ')' ∉ l := by
  induction l with
  | nil => simp
  | cons c rest ih =>
    intro hmem
    rw [splitLastParen] at h
    cases hr : splitLastParen rest with
    | some pq => rw [hr] at h; cases h
    | none =>
      rw [hr] at h
      rcases List.mem_cons.1 hmem with rfl | h2
      · rw [if_pos rfl] at h; cases h
      · exact ih hr h2

lemma splitLastParen_some : ∀ {l pre post : List Char},
    splitLastParen l = some (pre, post) → l = pre ++ ')' :: post ∧ ')' ∉ post := by
  intro l
  induction l with
  | nil => intro pre post h; cases h
  | cons c rest ih =>
    intro pre post h
    rw [splitLastParen] at h
    cases hr : splitLastParen rest with
    | some pq =>
      rcases pq with ⟨p1, q1⟩
      rw [hr] at h
      injection h with h2
      have hpre : c :: p1 = pre := congrArg Prod.fst h2
      have hpost : q1 = post := congrArg Prod.snd h2
      subst hpre; subst hpost
      rcases ih hr with ⟨hrest, hnot⟩
      exact ⟨by rw [List.cons_append, ← hrest], hnot⟩
    | none =>
      rw [hr] at h
      by_cases hc : c = ')'
      · rw [if_pos hc] at h
        injection h with h2
        have hpre : ([] : List Char) = pre := congrArg Prod.fst h2
        have hpost : rest = post := congrArg Prod.snd h2
        subst hpre; subst hpost
        subst hc
        exact ⟨rfl, splitLastParen_none hr⟩
      · rw [if_neg hc] at h; cases h

lemma splitLastParen_isSome {l : List Char} (h : ')' ∈ l) :
    ∃ pq, splitLastParen l = some pq := by
  cases hs : splitLastParen l with
  | none => exact absurd h (splitLastParen_none hs)
  | some pq => exact ⟨pq, rfl⟩

/-! ## Soundness and completeness of the match -/

lemma matchHere_some_decomp {s e v : List Char} (h : matchHere s = some (e, v)) :
    ∃ u ident post, s = u :: (ident ++ '(' :: (v ++ ')' :: post)) ∧
      u.isUpper = true ∧ ident ≠ [] ∧ (∀ c ∈ ident, c.isAlpha = true) ∧
      (∀ c ∈ v, c ≠ '\n') ∧ e = u :: (ident ++ '(' :: (v ++ [')'])) ∧
      (∀ c ∈ post.takeWhile (fun ch => ch != '\n'), c ≠ ')') := by
  cases s with
  | nil => cases h
  | cons c rest =>
    rw [matchHere] at h
    by_cases hc : c.isUpper
    · rw [if_pos hc] at h
      by_cases hemp : (rest.takeWhile Char.isAlpha).isEmpty
      · rw [if_pos hemp] at h; cases h
      · rw [if_neg hemp] at h
        cases hd : rest.dropWhile Char.isAlpha with
        | nil => rw [hd] at h; cases h
        | cons d afterParen =>
          rw [hd] at h
          dsimp only at h
          by_cases hdp : d = '('
          · rw [if_pos hdp] at h
            cases hsp : splitLastParen (afterParen.takeWhile (fun ch => ch != '\n')) with
            | none => rw [hsp] at h; cases h
            | some pq =>
              rcases pq with ⟨payload, after1⟩
              rw [hsp] at h
              injection h with h2
              have he : e = c :: (rest.takeWhile Char.isAlpha ++ '(' :: (payload ++ [')'])) :=
                (congrArg Prod.fst h2).symm
              have hv : v = payload := (congrArg Prod.snd h2).symm
              subst hv
              rcases splitLastParen_some hsp with ⟨havail, hafter1⟩
              have hall1 : ∀ x ∈ after1, (fun ch => ch != '\n') x = true := by
                intro x hx
                refine mem_takeWhile_pred (p := fun ch => ch != '\n') (l := afterParen) ?_
                rw [havail]
                exact List.mem_append_right _ (List.mem_cons_of_mem _ hx)
              have hAP : afterParen =
                  v ++ ')' :: (after1 ++ afterParen.dropWhile (fun ch => ch != '\n')) := by
                have h0 := List.takeWhile_append_dropWhile
                  (p := fun ch => ch != '\n') (l := afterParen)
                rw [havail] at h0
                conv_lhs => rw [← h0]
                simp [List.append_assoc]
              have hREST : rest = rest.takeWhile Char.isAlpha ++
                  '(' :: (v ++ ')' :: (after1 ++ afterParen.dropWhile (fun ch => ch != '\n'))) := by
                have h1 := List.takeWhile_append_dropWhile (p := Char.isAlpha) (l := rest)
                rw [hd, hdp] at h1
                conv_lhs => rw [← h1]
                conv_lhs => rw [hAP]
              refine ⟨c, rest.takeWhile Char.isAlpha,
                after1 ++ afterParen.dropWhile (fun ch => ch != '\n'), ?_, hc, ?_, ?_, ?_, he, ?_⟩
              · rw [List.cons.injEq]
                exact ⟨rfl, hREST⟩
              · intro hnil
                exact hemp (by rw [hnil]; rfl)
              · intro a ha
                exact mem_takeWhile_pred (p := Char.isAlpha) ha
              · intro a ha
                have hmem : a ∈ afterParen.takeWhile (fun ch => ch != '\n') := by
                  rw [havail]; exact List.mem_append_left _ ha
                have := mem_takeWhile_pred (p := fun ch => ch != '\n') hmem
                simpa using this
              · intro a ha
                have hsplit : (after1 ++ afterParen.dropWhile
                    (fun ch => ch != '\n')).takeWhile (fun ch => ch != '\n') = after1 := by
                  rcases dropWhile_nil_or_head (p := fun ch => ch != '\n') afterParen
                    with hrest2 | ⟨h2c, t2, hrest2, hph⟩
                  · rw [hrest2, List.append_nil]
                    exact takeWhile_all_self hall1
                  · rw [hrest2, takeWhile_append_all hall1, List.takeWhile_cons, if_neg ?_,
                      List.append_nil]
                    simpa using hph
                rw [hsplit] at ha
                intro hpar; rw [hpar] at ha; exact hafter1 ha
          · rw [if_neg hdp] at h; cases h
    · rw [if_neg hc] at h; cases h

lemma matchHere_shape (post : List Char) {u : Char} {ident v : List Char}
    (hu : u.isUpper = true) (hi : ident ≠ []) (hia : ∀ c ∈ ident, c.isAlpha = true)
    (hv : ∀ c ∈ v, c ≠ '\n') :
    ∃ m, matchHere (u :: (ident ++ '(' :: (v ++ ')' :: post))) = some m := by
  rw [matchHere, if_pos hu]
  have htw : (ident ++ '(' :: (v ++ ')' :: post)).takeWhile Char.isAlpha = ident := by
    rw [takeWhile_append_all hia, List.takeWhile_cons, if_neg (by decide), List.append_nil]
  have hdw : (ident ++ '(' :: (v ++ ')' :: post)).dropWhile Char.isAlpha =
      '(' :: (v ++ ')' :: post) := by
    rw [dropWhile_append_all hia, List.dropWhile_cons, if_neg (by decide)]
  rw [htw, hdw]
  have hemp : ident.isEmpty = false := by
    cases ident with
    | nil => exact absurd rfl hi
    | cons a l => rfl
  rw [hemp]
  simp only [Bool.false_eq_true, if_false, if_pos rfl]
  have hmem : ')' ∈ (v ++ ')' :: post).takeWhile (fun ch => ch != '\n') := by
    have hvall : ∀ c ∈ v, (fun ch => ch != '\n') c = true := by
      intro c hc; simpa using hv c hc
    rw [takeWhile_append_all hvall, List.takeWhile_cons, if_pos (by decide)]
    exact List.mem_append_right _ (List.mem_cons_self _ _)
  rcases splitLastParen_isSome hmem with ⟨⟨payload, after1⟩, hsp⟩
  rw [hsp]
  exact ⟨_, rfl⟩

/-! ## `regexSearch`: leftmost match -/

lemma regexSearch_none_iff {l : List Char} :
    regexSearch l = none ↔ ∀ k, matchHere (l.drop k) = none := by
  induction l with
  | nil => simp [regexSearch, matchHere]
  | cons c rest ih =>
    rw [regexSearch]
    cases hm : matchHere (c :: rest) with
    | some m =>
      simp only [reduceCtorEq, false_iff, not_forall]
      exact ⟨0, by rw [List.drop_zero, hm]; simp⟩
    | none =>
      rw [ih]
      constructor
      · intro h k
        cases k with
        | zero => rw [List.drop_zero]; exact hm
        | succ k => rw [List.drop_succ_cons]; exact h k
      · intro h k
        have := h (k + 1)
        rwa [List.drop_succ_cons] at this

lemma regexSearch_some_decomp {l : List Char} {m : List Char × List Char}
    (h : regexSearch l = some m) :
    ∃ n, n ≤ l.length ∧ matchHere (l.drop n) = some m ∧
      ∀ k < n, matchHere (l.drop k) = none := by
  induction l with
  | nil => cases h
  | cons c rest ih =>
    rw [regexSearch] at h
    cases hm : matchHere (c :: rest) with
    | some m1 =>
      rw [hm] at h
      injection h with h2
      subst h2
      exact ⟨0, Nat.zero_le _, by rw [List.drop_zero]; exact hm, by intro k hk; omega⟩
    | none =>
      rw [hm] at h
      rcases ih h with ⟨n, hn, hmatch, hbefore⟩
      refine ⟨n + 1, by simpa using Nat.succ_le_succ hn, ?_, ?_⟩
      · rwa [List.drop_succ_cons]
      · intro k hk
        cases k with
        | zero => rw [List.drop_zero]; exact hm
        | succ k =>
          rw [List.drop_succ_cons]
          exact hbefore k (Nat.lt_of_succ_lt_succ hk)

lemma regexSearch_isSome_of_hasConstructor {l : List Char} (h : HasConstructor l) :
    ∃ m, regexSearch l = some m := by
  rcases h with ⟨pre, u, ident, v, post, rfl, hu, hi, hia, hv⟩
  rcases matchHere_shape post hu hi hia hv with ⟨m, hm⟩
  cases hs : regexSearch (pre ++ u :: (ident ++ '(' :: (v ++ ')' :: post))) with
  | some m2 => exact ⟨m2, rfl⟩
  | none =>
    have hnone := regexSearch_none_iff.1 hs pre.length
    rw [List.drop_left] at hnone
    rw [hnone] at hm
    cases hm

lemma not_hasConstructor_of_search_none {l : List Char} (h : regexSearch l = none) :
    ¬ HasConstructor l := by
  intro hc
  rcases regexSearch_isSome_of_hasConstructor hc with ⟨m, hm⟩
  rw [h] at hm
  cases hm

lemma hasConstructor_of_search_some {l : List Char} {m : List Char × List Char}
    (h : regexSearch l = some m) : HasConstructor l := by
  rcases m with ⟨e, v⟩
  rcases regexSearch_some_decomp h with ⟨n, hn, hmatch, hleft⟩
  rcases matchHere_some_decomp hmatch with ⟨u, ident, post, hs, hu, hi, hia, hv, he, hpost⟩
  refine ⟨l.take n, u, ident, v, post, ?_, hu, hi, hia, hv⟩
  conv_lhs => rw [← List.take_append_drop n l]
  rw [hs]

/-! ## Template expansion of a backslash-free payload -/

lemma expandTemplateFuel_no_backslash {whole : List Char} :
    ∀ (fuel : Nat) (v : List Char), v.length ≤ fuel → (∀ c ∈ v, c ≠ '\\') →
    expandTemplateFuel whole fuel v = some v := by
  intro fuel
  induction fuel with
  | zero =>
    intro v hl _
    cases v with
    | nil => rfl
    | cons c rest => simp at hl
  | succ fuel ih =>
    intro v hl hv
    cases v with
    | nil => rfl
    | cons c rest =>
      have hc : c ≠ '\\' := hv c (List.mem_cons_self ..)
      rw [expandTemplateFuel]
      dsimp only [expandStep]
      rw [if_pos hc,
        ih rest (by simpa using Nat.le_of_succ_le_succ hl)
          (fun a ha => hv a (List.mem_cons_of_mem _ ha))]
      rfl

lemma expandTemplate_no_backslash (whole : List Char) {v : List Char}
    (hv : ∀ c ∈ v, c ≠ '\\') :
    expandTemplate whole v = some v :=
  expandTemplateFuel_no_backslash v.length v (Nat.le_refl _) hv

/-! ## `replaceAll` -/

lemma replaceAllFuel_no_match {pat repl : List Char} :
    ∀ (fuel : Nat) (s : List Char), (∀ k, pat.isPrefixOf (s.drop k) = false) →
    replaceAllFuel pat repl fuel s = s := by
  intro fuel
  induction fuel with
  | zero => intro s _; cases s <;> rfl
  | succ fuel ih =>
    intro s h
    cases s with
    | nil => rfl
    | cons c rest =>
      have h0 : pat.isPrefixOf (c :: rest) = false := by
        have := h 0; rwa [List.drop_zero] at this
      rw [replaceAllFuel, if_neg (by simp [h0]),
        ih rest (fun k => by have := h (k + 1); rwa [List.drop_succ_cons] at this)]

lemma replaceAllFuel_skip {pat repl : List Char} :
    ∀ (pre : List Char) (fuel : Nat) (tail : List Char),
      (∀ k, k < pre.length → pat.isPrefixOf ((pre ++ tail).drop k) = false) →
      pre.length ≤ fuel →
      replaceAllFuel pat repl fuel (pre ++ tail) =
        pre ++ replaceAllFuel pat repl (fuel - pre.length) tail := by
  intro pre
  induction pre with
  | nil => intro fuel tail _ _; simp
  | cons c pre ih =>
    intro fuel tail h hlen
    cases fuel with
    | zero => simp at hlen
    | succ fuel =>
      have h0 : pat.isPrefixOf (c :: (pre ++ tail)) = false := by
        have := h 0 (by simp)
        rwa [List.drop_zero, List.cons_append] at this
      rw [List.cons_append, replaceAllFuel, if_neg (by simp [h0])]
      rw [ih fuel tail ?_ (Nat.le_of_succ_le_succ hlen)]
      · rw [List.length_cons, Nat.succ_sub_succ, List.cons_append]
      · intro k hk
        have := h (k + 1) (by simpa using Nat.succ_lt_succ hk)
        rwa [List.cons_append, List.drop_succ_cons] at this

lemma isPrefixOf_self_append {pat post : List Char} :
    pat.isPrefixOf (pat ++ post) = true :=
  isPrefixOf_iff_ex.2 ⟨post, rfl⟩

lemma replaceAllFuel_head_match {pat repl : List Char} (hne : pat ≠ []) :
    ∀ (fuel : Nat) (post : List Char), 1 ≤ fuel →
      replaceAllFuel pat repl fuel (pat ++ post) =
        repl ++ replaceAllFuel pat repl (fuel - 1) post := by
  intro fuel post hf
  cases pat with
  | nil => exact absurd rfl hne
  | cons p ps =>
    cases fuel with
    | zero => simp at hf
    | succ fuel =>
      rw [List.cons_append, replaceAllFuel,
        if_pos (by rw [← List.cons_append]; exact isPrefixOf_self_append)]
      rw [show (p :: (ps ++ post)).drop (p :: ps).length = post from by
        rw [List.length_cons, List.drop_succ_cons, List.drop_left]]
      rfl

lemma replaceAll_single {pat repl pre post : List Char} (hne : pat ≠ [])
    (hpre : ∀ k, k < pre.length → pat.isPrefixOf ((pre ++ (pat ++ post)).drop k) = false)
    (hpost : ∀ k, pat.isPrefixOf (post.drop k) = false) :
    replaceAll pat repl (pre ++ (pat ++ post)) = pre ++ repl ++ post := by
  have hpat1 : 1 ≤ pat.length := by
    cases pat with
    | nil => exact absurd rfl hne
    | cons p ps => simp
  unfold replaceAll
  rw [replaceAllFuel_skip pre _ _ hpre (by simp [List.length_append])]
  rw [replaceAllFuel_head_match hne _ _ (by simp [List.length_append]; omega)]
  rw [replaceAllFuel_no_match _ _ hpost, List.append_assoc]

lemma mem_replaceAllFuel {pat repl : List Char} :
    ∀ (fuel : Nat) (s : List Char) (c : Char), c ∈ replaceAllFuel pat repl fuel s →
      c ∈ s ∨ c ∈ repl := by
  intro fuel
  induction fuel with
  | zero =>
    intro s c h
    cases s with
    | nil => simp [replaceAllFuel] at h
    | cons a rest => exact Or.inl h
  | succ fuel ih =>
    intro s c h
    cases s with
    | nil => simp [replaceAllFuel] at h
    | cons a rest =>
      rw [replaceAllFuel] at h
      by_cases hp : pat.isPrefixOf (a :: rest) = true
      · rw [if_pos hp] at h
        rcases List.mem_append.1 h with h1 | h1
        · exact Or.inr h1
        · rcases ih _ c h1 with h2 | h2
          · exact Or.inl (List.mem_of_mem_drop h2)
          · exact Or.inr h2
      · rw [if_neg hp] at h
        rcases List.mem_cons.1 h with rfl | h1
        · exact Or.inl (List.mem_cons_self ..)
        · rcases ih _ c h1 with h2 | h2
          · exact Or.inl (List.mem_cons_of_mem _ h2)
          · exact Or.inr h2

lemma prefix_drop_newline {pat x : List Char} (hnl : '\n' ∉ pat)
    (h : pat.isPrefixOf (x ++ ['\n']) = true) : pat.isPrefixOf x = true := by
  rcases isPrefixOf_iff_ex.1 h with ⟨t, ht⟩
  rcases List.eq_nil_or_concat t with rfl | ⟨t0, tl, rfl⟩
  · rw [List.append_nil] at ht
    exact absurd (ht ▸ List.mem_append_right x (List.mem_singleton_self _)) hnl
  · rw [List.concat_eq_append, ← List.append_assoc] at ht
    rcases List.append_inj' ht (by simp) with ⟨hx, _⟩
    exact isPrefixOf_iff_ex.2 ⟨t0, hx⟩

lemma prefix_extend {pat x y : List Char} (h : pat.isPrefixOf x = true) :
    pat.isPrefixOf (x ++ y) = true := by
  rcases isPrefixOf_iff_ex.1 h with ⟨t, rfl⟩
  exact isPrefixOf_iff_ex.2 ⟨t ++ y, by simp⟩

lemma length_le_of_isPrefixOf {pat x : List Char} (h : pat.isPrefixOf x = true) :
    pat.length ≤ x.length := by
  rcases isPrefixOf_iff_ex.1 h with ⟨t, rfl⟩
  simp

lemma replaceAllFuel_append_newline {pat repl : List Char} (hne : pat ≠ [])
    (hnl : '\n' ∉ pat) :
    ∀ (fuel : Nat) (b : List Char), b.length + 1 ≤ fuel →
      replaceAllFuel pat repl fuel (b ++ ['\n']) =
        replaceAllFuel pat repl fuel b ++ ['\n'] := by
  intro fuel
  induction fuel with
  | zero => intro b hb; simp at hb
  | succ fuel ih =>
    intro b hb
    cases b with
    | nil =>
      have hp0 : pat.isPrefixOf ['\n'] = false := by
        cases hp : pat.isPrefixOf ['\n'] with
        | false => rfl
        | true =>
          rcases isPrefixOf_iff_ex.1 hp with ⟨t, ht⟩
          cases pat with
          | nil => exact absurd rfl hne
          | cons p ps =>
            rw [List.cons_append] at ht
            injection ht with h1 h2
            exact absurd (h1 ▸ List.mem_cons_self p ps) hnl
      have hp : ∀ k, pat.isPrefixOf ((['\n'] : List Char).drop k) = false := by
        intro k
        cases k with
        | zero => exact hp0
        | succ k =>
          rw [List.drop_succ_cons, List.drop_nil]
          cases pat with
          | nil => exact absurd rfl hne
          | cons p ps => rfl
      rw [List.nil_append, replaceAllFuel_no_match _ _ hp]
      rfl
    | cons c b1 =>
      rw [List.cons_append]
      by_cases hp : pat.isPrefixOf (c :: (b1 ++ ['\n'])) = true
      · have hp' : pat.isPrefixOf (c :: b1) = true := by
          refine prefix_drop_newline hnl ?_
          rwa [List.cons_append]
        have hlep : pat.length ≤ (c :: b1).length := length_le_of_isPrefixOf hp'
        rw [replaceAllFuel, if_pos hp]
        rw [replaceAllFuel, if_pos hp']
        rw [show (c :: (b1 ++ ['\n'])).drop pat.length =
            (c :: b1).drop pat.length ++ ['\n'] from by
          rw [← List.cons_append, List.drop_append_of_le_length hlep]]
        rw [ih _ ?_, List.append_assoc]
        have : ((c :: b1).drop pat.length).length = (c :: b1).length - pat.length := by
          simp
        have hpat1 : 1 ≤ pat.length := by
          cases pat with
          | nil => exact absurd rfl hne
          | cons p ps => simp
        rw [this]
        simp only [List.length_cons] at hb ⊢
        omega
      · have hp' : pat.isPrefixOf (c :: b1) = false := by
          cases hp2 : pat.isPrefixOf (c :: b1) with
          | false => rfl
          | true =>
            exact absurd (by rw [← List.cons_append]; exact prefix_extend hp2) hp
        rw [replaceAllFuel, if_neg (by simp [hp]), replaceAllFuel, if_neg (by simp [hp'])]
        rw [ih _ (by simp only [List.length_cons] at hb ⊢; omega), List.cons_append]

/-! ## Equations for the normalizer -/

lemma fix_eq_of_search_none {l : List Char} (h : regexSearch l = none) :
    fix_mongodb_objects l = some l := by
  unfold fix_mongodb_objects detect_mongodb_object
  rw [h]

lemma fix_eq_of_search_some {l e v r : List Char} (h : regexSearch l = some (e, v))
    (hev : expandTemplate e v = some r) :
    fix_mongodb_objects l = some (replaceAll e r l) := by
  unfold fix_mongodb_objects detect_mongodb_object replace_mongodb_object
  rw [h]
  dsimp only
  rw [hev]
  rfl

/-! ## Lines of a file -/

/-- A line as produced by `readlines` from a newline-terminated file: ends
with a newline and has no interior newline. -/
def ProperLine (l : List Char) : Prop :=
  ∃ b, l = b ++ ['\n'] ∧ '\n' ∉ b

lemma pyReadlinesAux_split : ∀ (b acc rest : List Char), (∀ c ∈ b, c ≠ '\n') →
    pyReadlinesAux acc (b ++ '\n' :: rest) =
      ((acc.reverse ++ b) ++ ['\n']) :: pyReadlinesAux [] rest := by
  intro b
  induction b with
  | nil =>
    intro acc rest _
    rw [List.nil_append, pyReadlinesAux, if_pos rfl, List.append_nil]
  | cons c b ih =>
    intro acc rest h
    have hc : c ≠ '\n' := h c (List.mem_cons_self ..)
    rw [List.cons_append, pyReadlinesAux, if_neg hc,
      ih (c :: acc) rest (fun a ha => h a (List.mem_cons_of_mem _ ha))]
    simp [List.append_assoc]

lemma pyReadlines_concat_proper : ∀ {ls : List (List Char)},
    (∀ l ∈ ls, ProperLine l) → pyReadlines (concatAll ls) = ls := by
  intro ls
  induction ls with
  | nil => intro _; rfl
  | cons l ls ih =>
    intro h
    rcases h l (List.mem_cons_self ..) with ⟨b, rfl, hb⟩
    have : concatAll ((b ++ ['\n']) :: ls) = b ++ '\n' :: concatAll ls := by
      rw [concatAll, List.append_assoc]
      rfl
    rw [this]
    unfold pyReadlines
    rw [pyReadlinesAux_split b [] (concatAll ls) (fun c hc hcn => hb (hcn ▸ hc))]
    rw [List.reverse_nil, List.nil_append]
    exact congrArg _ (ih (fun x hx => h x (List.mem_cons_of_mem _ hx)))

lemma pyReadlinesAux_proper : ∀ (s acc : List Char), (∀ c ∈ acc, c ≠ '\n') →
    ((s = [] ∧ acc = []) ∨ s.getLast? = some '\n') →
    ∀ l ∈ pyReadlinesAux acc s, ProperLine l := by
  intro s
  induction s with
  | nil =>
    intro acc hacc hdisj
    rcases hdisj with ⟨_, rfl⟩ | habs
    · intro l hl; simp [pyReadlinesAux] at hl
    · simp at habs
  | cons c rest ih =>
    intro acc hacc hdisj
    by_cases hc : c = '\n'
    · subst hc
      rw [pyReadlinesAux, if_pos rfl]
      intro l hl
      rcases List.mem_cons.1 hl with rfl | hl2
      · exact ⟨acc.reverse, rfl, fun hmem => (hacc _ (List.mem_reverse.1 hmem)) rfl⟩
      · refine ih [] (by simp) ?_ l hl2
        cases rest with
        | nil => exact Or.inl ⟨rfl, rfl⟩
        | cons r rs =>
          rcases hdisj with ⟨habs, _⟩ | hlast
          · cases habs
          · rw [List.getLast?_cons_cons] at hlast
            exact Or.inr hlast
    · rw [pyReadlinesAux, if_neg hc]
      refine ih (c :: acc) ?_ ?_
      · intro a ha
        rcases List.mem_cons.1 ha with rfl | ha2
        · exact hc
        · exact hacc a ha2
      · cases rest with
        | nil =>
          rcases hdisj with ⟨habs, _⟩ | hlast
          · cases habs
          · rw [List.getLast?_singleton] at hlast
            injection hlast with h1
            exact absurd h1 hc
        | cons r rs =>
          rcases hdisj with ⟨habs, _⟩ | hlast
          · cases habs
          · rw [List.getLast?_cons_cons] at hlast
            exact Or.inr hlast

lemma pyReadlines_proper {content : List Char} (h : content.getLast? = some '\n') :
    ∀ l ∈ pyReadlines content, ProperLine l :=
  pyReadlinesAux_proper content [] (by simp) (Or.inr h)

/-! ## Sequencing of the per-line results -/

lemma sequenceOpt_length : ∀ {xs : List (Option (List Char))} {ys : List (List Char)},
    sequenceOpt xs = some ys → ys.length = xs.length := by
  intro xs
  induction xs with
  | nil =>
    intro ys h
    injection h with h1
    rw [← h1]
    rfl
  | cons x xs ih =>
    intro ys h
    cases x with
    | none => cases h
    | some a =>
      rw [sequenceOpt] at h
      cases hseq : sequenceOpt xs with
      | none => rw [hseq] at h; cases h
      | some l =>
        rw [hseq] at h
        injection h with h1
        rw [← h1, List.length_cons, List.length_cons, ih hseq]

lemma sequenceOpt_map_mem {f : List Char → Option (List Char)} :
    ∀ {xs ys : List (List Char)}, sequenceOpt (xs.map f) = some ys →
    ∀ y ∈ ys, ∃ x ∈ xs, f x = some y := by
  intro xs
  induction xs with
  | nil =>
    intro ys h y hy
    injection h with h1
    rw [← h1] at hy
    simp at hy
  | cons x xs ih =>
    intro ys h y hy
    rw [List.map_cons] at h
    cases hfx : f x with
    | none => rw [hfx] at h; cases h
    | some a =>
      rw [hfx, sequenceOpt] at h
      cases hseq : sequenceOpt (xs.map f) with
      | none => rw [hseq] at h; cases h
      | some l =>
        rw [hseq] at h
        injection h with h1
        rw [← h1] at hy
        rcases List.mem_cons.1 hy with rfl | hy2
        · exact ⟨x, List.mem_cons_self .., hfx⟩
        · rcases ih hseq y hy2 with ⟨x1, hx1, hfx1⟩
          exact ⟨x1, List.mem_cons_of_mem _ hx1, hfx1⟩

lemma sequenceOpt_map_eq_mapM (f : List Char → Option (List Char)) :
    ∀ xs : List (List Char), sequenceOpt (xs.map f) = xs.mapM f := by
  intro xs
  induction xs with
  | nil => rfl
  | cons x xs ih =>
    rw [List.map_cons, List.mapM_cons]
    cases hfx : f x with
    | none => simp [sequenceOpt, hfx]
    | some a =>
      rw [sequenceOpt, ih]
      cases hxs : xs.mapM f with
      | none => simp [hfx]
      | some l => simp [hfx]

/-! ## The write loop -/

lemma fsWrite_fsWrite (fs : FS) (p : String) (c d : List Char) :
    fsWrite (fsWrite fs p c) p d = fsWrite fs p d := by
  funext q
  by_cases h : q = p <;> simp [fsWrite, h]

lemma fsWrite_read (fs : FS) (p : String) (c : List Char) : fsWrite fs p c p = some c := by
  simp [fsWrite]

lemma writeLinesLoop_concat : ∀ (ls : List (List Char)) (fs : FS) (p : String) (c : List Char),
    writeLinesLoop p (fsWrite fs p c) ls = fsWrite fs p (c ++ concatAll ls) := by
  intro ls
  induction ls with
  | nil => intro fs p c; rw [writeLinesLoop, concatAll, List.append_nil]
  | cons l ls ih =>
    intro fs p c
    rw [writeLinesLoop]
    have hwl : writeLine (fsWrite fs p c) p l = fsWrite fs p (c ++ l) := by
      unfold writeLine
      rw [fsWrite_read, fsWrite_fsWrite]
      rfl
    rw [hwl, ih, concatAll, ← List.append_assoc]

/-! ## The normalizer maps proper lines to proper lines -/

lemma payload_no_backslash {l e v : List Char} (hs : regexSearch l = some (e, v))
    (hbs : payloadBackslashFree l = true) : ∀ c ∈ v, c ≠ '\\' := by
  unfold payloadBackslashFree at hbs
  rw [hs] at hbs
  intro c hc
  have := List.all_eq_true.1 hbs c hc
  simpa using this

lemma expr_no_newline {l e v : List Char} (hs : regexSearch l = some (e, v)) :
    '\n' ∉ e ∧ e ≠ [] ∧ (∀ c ∈ v, c ≠ '\n') := by
  rcases regexSearch_some_decomp hs with ⟨n, _, hmatch, _⟩
  rcases matchHere_some_decomp hmatch with ⟨u, ident, post, _, hu, _, hia, hv, he, _⟩
  refine ⟨?_, by rw [he]; simp, hv⟩
  rw [he]
  intro hmem
  rcases List.mem_cons.1 hmem with hequ | hmem2
  · rw [← hequ] at hu
    simp at hu
  · rcases List.mem_append.1 hmem2 with hid | hmem3
    · have := hia _ hid
      simp at this
    · rcases List.mem_cons.1 hmem3 with hpar | hmem4
      · cases hpar
      · rcases List.mem_append.1 hmem4 with hvv | hcl
        · exact (hv _ hvv) rfl
        · rcases List.mem_singleton.1 hcl with h1
          cases h1

lemma fix_proper {l r : List Char} (hl : ProperLine l) (hbs : payloadBackslashFree l = true)
    (hfix : fix_mongodb_objects l = some r) : ProperLine r := by
  cases hs : regexSearch l with
  | none =>
    rw [fix_eq_of_search_none hs] at hfix
    injection hfix with h1
    rw [← h1]
    exact hl
  | some m =>
    rcases m with ⟨e, v⟩
    have hv' : ∀ c ∈ v, c ≠ '\\' := payload_no_backslash hs hbs
    have hexp := expandTemplate_no_backslash e hv'
    rw [fix_eq_of_search_some hs hexp] at hfix
    injection hfix with h1
    rcases expr_no_newline hs with ⟨henl, hene, hvnl⟩
    rcases hl with ⟨b, rfl, hbnl⟩
    unfold replaceAll at h1
    rw [List.length_append, List.length_singleton] at h1
    rw [replaceAllFuel_append_newline hene henl (b.length + 1) b (Nat.le_refl _)] at h1
    refine ⟨replaceAllFuel e v (b.length + 1) b, h1.symm, ?_⟩
    intro hmem
    rcases mem_replaceAllFuel (b.length + 1) b '\n' hmem with h2 | h2
    · exact hbnl h2
    · exact (hvnl _ h2) rfl

/-! ## Concrete inputs used by witnesses and counterexamples -/

def pIn : String := "source.json"
def pOut : String := "converted.json"

def c6Line : List Char := "Ab((1) (2))".toList
def c6Expr : List Char := "Ab((1) (2))".toList
def c6Payload : List Char := "(1) (2)".toList

def c7Line : List Char := "  ],\n".toList

def c8LineA : List Char := "ObjectId(\"abc123\")".toList
def c8OutA : List Char := "\"abc123\"".toList
def c8LineB : List Char := "  \"_id\": ObjectId(\"x\"),\n".toList
def c8OutB : List Char := "  \"_id\": \"x\",\n".toList

def c1Line : List Char := "Ab(\\n)".toList
def c1wLine : List Char := "ObjectId(\"abc\")".toList
def c1wExpr : List Char := "ObjectId(\"abc\")".toList
def c1wVal : List Char := "\"abc\"".toList

/-! ## C6 -/

/-- C6: when the detector (`regexSearch`, modelling `RE_MONGODB_OBJECT`)
matches a line, the matched expression has the shape `Identifier(Payload)`
with the identifier exactly one uppercase letter followed by one or more
letters, and the match is greedy: no closing parenthesis occurs on the line
after the match, so the extracted payload runs from the opening parenthesis
after the identifier to the last closing parenthesis on the line. -/
theorem C6_detector_shape (l e v : List Char) (hnl : ∀ c ∈ l, c ≠ '\n')
    (h : regexSearch l = some (e, v)) :
    ∃ pre u ident post,
      l = pre ++ u :: (ident ++ '(' :: (v ++ ')' :: post)) ∧
      u.isUpper = true ∧ ident ≠ [] ∧ (∀ c ∈ ident, c.isAlpha = true) ∧
      e = u :: (ident ++ '(' :: (v ++ [')'])) ∧ ')' ∉ post := by
  rcases regexSearch_some_decomp h with ⟨n, hn, hmatch, _⟩
  rcases matchHere_some_decomp hmatch with ⟨u, ident, post, hdecomp, hu, hi, hia, hv, he, hpost⟩
  refine ⟨l.take n, u, ident, post, ?_, hu, hi, hia, he, ?_⟩
  · conv_lhs => rw [← List.take_append_drop n l, hdecomp]
  · have hpostl : ∀ c ∈ post, c ≠ '\n' := by
      intro c hc
      apply hnl
      refine List.mem_of_mem_drop (n := n) ?_
      rw [hdecomp]
      simp [hc]
    have hall : ∀ c ∈ post, (fun ch => ch != '\n') c = true := by
      intro c hc; simpa using hpostl c hc
    rw [takeWhile_all_self hall] at hpost
    intro hmem
    exact (hpost _ hmem) rfl

/-- Witness for C6 at the nested-parentheses line `Ab((1) (2))`: the single
greedy match collapses both parenthesized groups into one payload. -/
theorem C6_detector_shape_witness :
    (∀ c ∈ c6Line, c ≠ '\n') ∧ regexSearch c6Line = some (c6Expr, c6Payload) ∧
    ∃ pre u ident post,
      c6Line = pre ++ u :: (ident ++ '(' :: (c6Payload ++ ')' :: post)) ∧
      u.isUpper = true ∧ ident ≠ [] ∧ (∀ c ∈ ident, c.isAlpha = true) ∧
      c6Expr = u :: (ident ++ '(' :: (c6Payload ++ [')'])) ∧ ')' ∉ post :=
  ⟨by decide, by decide, C6_detector_shape c6Line c6Expr c6Payload (by decide) (by decide)⟩

/-! ## C7 -/

/-- C7: a line with no constructor-style substring (no uppercase-initial
identifier of two or more letters immediately followed by a parenthesized
group closing on the same line) is returned unchanged, and no exception is
raised (the result is `some`). -/
theorem C7_no_match_unchanged (l : List Char) (h : ¬ HasConstructor l) :
    fix_mongodb_objects l = some l := by
  cases hs : regexSearch l with
  | none => exact fix_eq_of_search_none hs
  | some m => exact absurd (hasConstructor_of_search_some hs) h

/-- Witness for C7 on the punctuation-only line.  The hypothesis is
discharged through the completeness direction of the search. -/
theorem C7_no_match_unchanged_witness :
    (¬ HasConstructor c7Line) ∧ fix_mongodb_objects c7Line = some c7Line :=
  ⟨not_hasConstructor_of_search_none (by decide),
   C7_no_match_unchanged c7Line (not_hasConstructor_of_search_none (by decide))⟩

/-! ## C8 -/

/-- C8: the spec's concrete examples evaluate as stated: the bare constructor
line loses its wrapper, and the embedded one keeps surrounding text, comma
and trailing newline. -/
theorem C8_spec_examples :
    fix_mongodb_objects c8LineA = some c8OutA ∧
    fix_mongodb_objects c8LineB = some c8OutB := by decide

/-! ## C1 -/

/-- C1 counterexample: on the line `Ab(\n)` (payload is the two characters
backslash-n) the code returns the one-character newline string — the payload
is template-expanded by `re.sub`, not inserted as plain characters — whereas
a literal substring substitution (`literalNormalize`, the spec's wording)
keeps the two characters. -/
theorem C1_literal_substitution_counterexample :
    fix_mongodb_objects c1Line = some ['\n'] ∧
    literalNormalize c1Line = ['\\', 'n'] ∧
    fix_mongodb_objects c1Line ≠ some (literalNormalize c1Line) := by decide

/-- C1 amended: the matched expression is located literally (the pattern side
is escaped, so metacharacters in the matched text never matter), and the
substitution is the literal one whenever the payload contains no backslash;
a backslash in the payload is interpreted as a template escape instead. -/
theorem C1_literal_substitution (l e v : List Char)
    (h : regexSearch l = some (e, v)) (hb : ∀ c ∈ v, c ≠ '\\') :
    fix_mongodb_objects l = some (replaceAll e v l) ∧
    fix_mongodb_objects l = some (literalNormalize l) := by
  have hexp := expandTemplate_no_backslash e hb
  have h1 := fix_eq_of_search_some h hexp
  refine ⟨h1, ?_⟩
  unfold literalNormalize
  rw [h]
  exact h1

/-- Witness for C1 amended at `ObjectId("abc")`. -/
theorem C1_literal_substitution_witness :
    regexSearch c1wLine = some (c1wExpr, c1wVal) ∧ (∀ c ∈ c1wVal, c ≠ '\\') ∧
    (fix_mongodb_objects c1wLine = some (replaceAll c1wExpr c1wVal c1wLine) ∧
     fix_mongodb_objects c1wLine = some (literalNormalize c1wLine)) :=
  ⟨by decide, by decide, C1_literal_substitution c1wLine c1wExpr c1wVal (by decide) (by decide)⟩

/-! ## C4 -/

def c4Line : List Char := "Ab(x) Cd(y)".toList
def c4Out : List Char := "x) Cd(y".toList
def c4Second : List Char := "Cd(y)".toList
def c4ClaimOut : List Char := "x Cd(y)".toList

/-- Substring test: does `needle` occur contiguously in the string? -/
def isSubstring (needle : List Char) : List Char → Bool
  | [] => needle.isEmpty
  | c :: rest => needle.isPrefixOf (c :: rest) || isSubstring needle rest

/-- C4 counterexample: on `Ab(x) Cd(y)` — two independent constructor
expressions — the result is `x) Cd(y`: the single greedy match spans both, so
the second expression `Cd(y)` is not left as-is (it no longer occurs in the
output), and the output is not the claim's `x Cd(y)`. -/
theorem C4_first_match_only_counterexample :
    fix_mongodb_objects c4Line = some c4Out ∧
    isSubstring c4Second c4Out = false ∧
    fix_mongodb_objects c4Line ≠ some c4ClaimOut := by decide

/-- C4 amended: exactly one search and one substitution happen per line, but
the single match is greedy up to the last closing parenthesis: the whole
matched span (which absorbs any further constructor expression on the line)
is replaced by its payload, and only the text before the match and the text
after the last closing parenthesis survive unchanged. -/
theorem C4_single_greedy_substitution (l e v : List Char)
    (hnl : ∀ c ∈ l, c ≠ '\n') (hb : ∀ c ∈ v, c ≠ '\\')
    (h : regexSearch l = some (e, v)) :
    ∃ pre post, l = pre ++ (e ++ post) ∧ ')' ∉ post ∧
      fix_mongodb_objects l = some (pre ++ (v ++ post)) := by
  rcases regexSearch_some_decomp h with ⟨n, hn, hmatch, hleft⟩
  rcases matchHere_some_decomp hmatch with ⟨u, ident, post, hdecomp, hu, hi, hia, hvnl, he, hpost⟩
  have hdropE : l.drop n = e ++ post := by
    rw [hdecomp, he]
    simp [List.append_assoc]
  have hpostNoParen : ')' ∉ post := by
    have hpostl : ∀ c ∈ post, c ≠ '\n' := by
      intro c hc
      apply hnl
      refine List.mem_of_mem_drop (n := n) ?_
      rw [hdecomp]
      simp [hc]
    have hall : ∀ c ∈ post, (fun ch => ch != '\n') c = true := by
      intro c hc; simpa using hpostl c hc
    rw [takeWhile_all_self hall] at hpost
    intro hmem
    exact (hpost _ hmem) rfl
  have hLdecomp : l = l.take n ++ (e ++ post) := by
    conv_lhs => rw [← List.take_append_drop n l, hdropE]
  have htklen : (l.take n).length = n := by
    rw [List.length_take]
    omega
  have hpre : ∀ k, k < (l.take n).length →
      e.isPrefixOf ((l.take n ++ (e ++ post)).drop k) = false := by
    intro k hk
    rw [← hLdecomp]
    cases hp : e.isPrefixOf (l.drop k) with
    | false => rfl
    | true =>
      exfalso
      rcases isPrefixOf_iff_ex.1 hp with ⟨t, ht⟩
      have hshape : l.drop k = u :: (ident ++ '(' :: (v ++ ')' :: t)) := by
        rw [ht, he]
        simp [List.append_assoc]
      rcases matchHere_shape t hu hi hia hvnl with ⟨m2, hm2⟩
      rw [← hshape] at hm2
      rw [hleft k (htklen ▸ hk)] at hm2
      cases hm2
  have hpostpre : ∀ k, e.isPrefixOf (post.drop k) = false := by
    intro k
    cases hp : e.isPrefixOf (post.drop k) with
    | false => rfl
    | true =>
      exfalso
      have hmemE : ')' ∈ e := by
        rw [he]
        simp
      exact hpostNoParen (List.mem_of_mem_drop (mem_of_isPrefixOf hp hmemE))
  have hene : e ≠ [] := by
    rw [he]
    simp
  have hexp := expandTemplate_no_backslash e hb
  have hfix := fix_eq_of_search_some h hexp
  refine ⟨l.take n, post, hLdecomp, hpostNoParen, ?_⟩
  rw [hfix]
  congr 1
  conv_lhs => rw [hLdecomp]
  rw [replaceAll_single hene hpre hpostpre, List.append_assoc]

/-- Witness for C4 amended at the two-expression line `Ab(x) Cd(y)`. -/
theorem C4_single_greedy_substitution_witness :
    (∀ c ∈ c4Line, c ≠ '\n') ∧ (∀ c ∈ c4Out, c ≠ '\\') ∧
    regexSearch c4Line = some (c4Line, c4Out) ∧
    ∃ pre post, c4Line = pre ++ (c4Line ++ post) ∧ ')' ∉ post ∧
      fix_mongodb_objects c4Line = some (pre ++ (c4Out ++ post)) :=
  ⟨by decide, by decide, by decide,
   C4_single_greedy_substitution c4Line c4Line c4Out (by decide) (by decide) (by decide)⟩

/-! ## C5 -/

def c5Line : List Char := "Ab(Cd(x))".toList
def c5Once : List Char := "Cd(x)".toList
def c5Twice : List Char := "x".toList

/-- C5 counterexample: `Ab(Cd(x))` normalizes to `Cd(x)`, whose payload is
itself a constructor expression, so a second application rewrites again, to
`x`: the normalizer is not idempotent. -/
theorem C5_idempotence_counterexample :
    fix_mongodb_objects c5Line = some c5Once ∧
    fix_mongodb_objects c5Once = some c5Twice ∧ c5Once ≠ c5Twice := by decide

/-- C5 amended: a second application returns the output unchanged whenever
that output no longer matches the detection pattern.  This is only a
sufficient condition: the spec's justification ("the payload has no outer
uppercase-identifier wrapper") fails for nested constructor payloads, which
still match and are rewritten again; and a still-matching output can also
happen to be a fixed point (a `\g<0>` payload re-inserts the whole match). -/
theorem C5_idempotent_on_nonmatching_output (l r : List Char)
    (h : fix_mongodb_objects l = some r) (hr : regexSearch r = none) :
    fix_mongodb_objects r = some r ∧
    fix_mongodb_objects r = fix_mongodb_objects l :=
  ⟨fix_eq_of_search_none hr, by rw [fix_eq_of_search_none hr, h]⟩

def c5wLine : List Char := "ObjectId(\"a\")".toList
def c5wOut : List Char := "\"a\"".toList

/-- Witness for C5 amended at `ObjectId("a")`, whose output `"a"` has no
further match. -/
theorem C5_idempotent_on_nonmatching_output_witness :
    fix_mongodb_objects c5wLine = some c5wOut ∧ regexSearch c5wOut = none ∧
    (fix_mongodb_objects c5wOut = some c5wOut ∧
     fix_mongodb_objects c5wOut = fix_mongodb_objects c5wLine) :=
  ⟨by decide, by decide,
   C5_idempotent_on_nonmatching_output c5wLine c5wOut (by decide) (by decide)⟩

/-! ## C2 -/

def c2Line : List Char := "Ab()".toList
def c2xFS : FS := fun q => if q = pIn then some c2Line else none
def c2xFS1 : FS := writeLinesLoop pOut (fsWrite c2xFS pOut []) [[]]

/-- C2 counterexample: the one-line input file `Ab()` (no trailing newline)
normalizes to the empty string, so the output file has zero lines while the
input has one: `convert_file` does not always preserve the line count, and
`fix_mongodb_objects` can change the number of lines of a single input line. -/
theorem C2_line_count_counterexample :
    fix_mongodb_objects c2Line = some [] ∧
    countLines c2Line = 1 ∧ countLines [] = 0 ∧
    update_json_file c2xFS pIn pOut = some c2xFS1 ∧
    c2xFS1 pOut = some [] := by
  refine ⟨by decide, by decide, by decide, rfl, rfl⟩

/-- C2 amended: the output of `update_json_file` has exactly as many lines as
the input, in the same order (the output's line split is exactly the list of
normalized lines), provided every input line is newline-terminated (the file
ends with a newline) and no matched payload contains a backslash.  The
counterexamples show both provisos are needed: an unterminated final line can
normalize to the empty string and vanish, and a backslash escape in a payload
can expand to a newline. -/
theorem C2_line_count_preserved (fs fs1 : FS) (p out : String) (content : List Char)
    (hp : fs p = some content)
    (hend : content.getLast? = some '\n')
    (hbs : ∀ l ∈ pyReadlines content, payloadBackslashFree l = true)
    (hu : update_json_file fs p out = some fs1) :
    ∃ ls, sequenceOpt ((pyReadlines content).map fix_mongodb_objects) = some ls ∧
      fs1 out = some (concatAll ls) ∧ pyReadlines (concatAll ls) = ls ∧
      ls.length = countLines content ∧ countLines (concatAll ls) = countLines content := by
  unfold update_json_file at hu
  rw [hp] at hu
  dsimp only at hu
  cases hseq : sequenceOpt ((pyReadlines content).map fix_mongodb_objects) with
  | none => rw [hseq] at hu; cases hu
  | some ls =>
    rw [hseq] at hu
    dsimp only at hu
    injection hu with hu1
    have hfs1 : fs1 = fsWrite fs out (concatAll ls) := by
      rw [← hu1, writeLinesLoop_concat, List.nil_append]
    have hproper : ∀ y ∈ ls, ProperLine y := by
      intro y hy
      rcases sequenceOpt_map_mem hseq y hy with ⟨x, hx, hfx⟩
      exact fix_proper (pyReadlines_proper hend x hx) (hbs x hx) hfx
    have hsplit : pyReadlines (concatAll ls) = ls := pyReadlines_concat_proper hproper
    have hlen : ls.length = countLines content := by
      have h1 := sequenceOpt_length hseq
      rw [List.length_map] at h1
      exact h1
    refine ⟨ls, rfl, ?_, hsplit, hlen, ?_⟩
    · rw [hfs1]
      exact fsWrite_read ..
    · unfold countLines
      rw [hsplit]
      exact hlen

def c2wContent : List Char := "Ab(x)\n".toList
def c2wFS : FS := fun q => if q = pIn then some c2wContent else none
def c2wFS1 : FS := writeLinesLoop pOut (fsWrite c2wFS pOut []) ["x\n".toList]

/-- Witness for C2 amended on the newline-terminated one-line file
`Ab(x)\n`. -/
theorem C2_line_count_preserved_witness :
    c2wFS pIn = some c2wContent ∧ c2wContent.getLast? = some '\n' ∧
    (∀ l ∈ pyReadlines c2wContent, payloadBackslashFree l = true) ∧
    update_json_file c2wFS pIn pOut = some c2wFS1 ∧
    ∃ ls, sequenceOpt ((pyReadlines c2wContent).map fix_mongodb_objects) = some ls ∧
      c2wFS1 pOut = some (concatAll ls) ∧ pyReadlines (concatAll ls) = ls ∧
      ls.length = countLines c2wContent ∧
      countLines (concatAll ls) = countLines c2wContent :=
  ⟨rfl, by decide, by decide, rfl,
   C2_line_count_preserved c2wFS c2wFS1 pIn pOut c2wContent rfl (by decide) (by decide) rfl⟩

/-! ## C9 -/

/-- C9: `update_json_file` is extensionally the spec's `convert_file`
contract: read the lines (terminators preserved by the split), normalize each
independently in order, and write their concatenation — and nothing else — to
the destination; the same exceptional cases propagate. -/
theorem C9_update_eq_spec (fs : FS) (p out : String) :
    update_json_file fs p out = convert_file_spec fs p out := by
  unfold update_json_file convert_file_spec
  cases hp : fs p with
  | none => rfl
  | some content =>
    dsimp only
    rw [← sequenceOpt_map_eq_mapM]
    cases hseq : sequenceOpt ((pyReadlines content).map fix_mongodb_objects) with
    | none => rfl
    | some ls =>
      dsimp only
      rw [writeLinesLoop_concat, List.nil_append]

/-! ## C10 -/

/-- C10: the input is fully read and normalized before the destination is
opened: when the call succeeds, the destination holds the normalization of
the input's original content — also when the two paths coincide — and a
distinct source path is left untouched. -/
theorem C10_source_read_before_write (fs : FS) (p out : String) (content : List Char)
    (ls : List (List Char)) (hp : fs p = some content)
    (hm : sequenceOpt ((pyReadlines content).map fix_mongodb_objects) = some ls) :
    ∃ fs1, update_json_file fs p out = some fs1 ∧
      fs1 out = some (concatAll ls) ∧ (p ≠ out → fs1 p = some content) := by
  unfold update_json_file
  rw [hp]
  dsimp only
  rw [hm]
  refine ⟨_, rfl, ?_, ?_⟩
  · rw [writeLinesLoop_concat, List.nil_append]
    exact fsWrite_read ..
  · intro hne
    rw [writeLinesLoop_concat, List.nil_append]
    unfold fsWrite
    rw [if_neg hne]
    exact hp

def c10Content : List Char := "Date(\"2021\")\n".toList
def c10FS : FS := fun q => if q = pIn then some c10Content else none
def c10Fixed : List (List Char) := ["\"2021\"\n".toList]

/-- Witness for C10, writing the normalization of `Date("2021")` to a
distinct output path. -/
theorem C10_source_read_before_write_witness :
    c10FS pIn = some c10Content ∧
    sequenceOpt ((pyReadlines c10Content).map fix_mongodb_objects) = some c10Fixed ∧
    ∃ fs1, update_json_file c10FS pIn pOut = some fs1 ∧
      fs1 pOut = some (concatAll c10Fixed) ∧ (pIn ≠ pOut → fs1 pIn = some c10Content) :=
  ⟨rfl, by decide,
   C10_source_read_before_write c10FS pIn pOut c10Content c10Fixed rfl (by decide)⟩

/-! ## C3 -/

lemma pyGet_dict (fields : List (String × PyVal)) (k : String) :
    pyGet (PyVal.dict fields) k = Except.ok ((lookupKey k fields).getD PyVal.none_) := rfl

def sAmt : String := "10.5"
def sCur : String := "USD"
def sGrant : String := "2021-01-01"

/-- A document where every intermediate object exists but the leaf
`customer_id` is absent from `member`. -/
def c3Doc : PyVal := PyVal.dict
  [(kMember, PyVal.dict []),
   (kRewards, PyVal.dict [(kAmount, PyVal.str sAmt), (kCurrency, PyVal.str sCur)]),
   (kRewardsResults, PyVal.list [PyVal.dict [(kGrantTime, PyVal.str sGrant)]])]

/-- C3 counterexample: with `member.customer_id` absent (one of the claim's
four required paths), the projection does not raise — `dict.get` defaults the
missing leaf to `None` and a partial row is returned. -/
theorem C3_missing_leaf_counterexample :
    read_udpated_json_file c3Doc =
      Except.ok ⟨PyVal.none_, PyVal.str sAmt, PyVal.str sCur, PyVal.str sGrant⟩ ∧
    ∀ e, read_udpated_json_file c3Doc ≠ Except.error e := by
  constructor
  · rfl
  · intro e h
    have h0 : read_udpated_json_file c3Doc =
        Except.ok ⟨PyVal.none_, PyVal.str sAmt, PyVal.str sCur, PyVal.str sGrant⟩ := rfl
    rw [h0] at h
    cases h

/-- C3 amended: the projection raises when an intermediate lookup fails — the
top-level `member`, `rewards` or `rewards_results` key absent (then `.get` or
`[0]` is called on `None`), or `rewards_results` empty (then `[0]` is an
`IndexError`) — whereas an absent leaf key is silently defaulted to `None`. -/
theorem C3_intermediate_absence_raises (fields : List (String × PyVal))
    (h : lookupKey kMember fields = none ∨ lookupKey kRewards fields = none ∨
         lookupKey kRewardsResults fields = none ∨
         lookupKey kRewardsResults fields = some (PyVal.list [])) :
    ∃ e, read_udpated_json_file (PyVal.dict fields) = Except.error e := by
  unfold read_udpated_json_file
  rcases h with hm | hr | hrr | hrr0
  · rw [pyGet_dict, hm]
    exact ⟨_, rfl⟩
  · rw [pyGet_dict]
    dsimp only
    cases hm2 : (lookupKey kMember fields).getD PyVal.none_ with
    | none_ => exact ⟨_, rfl⟩
    | bool b => exact ⟨_, rfl⟩
    | num n => exact ⟨_, rfl⟩
    | str s => exact ⟨_, rfl⟩
    | list xs => exact ⟨_, rfl⟩
    | dict f2 =>
      dsimp only [pyGet]
      rw [hr]
      exact ⟨_, rfl⟩
  · rw [pyGet_dict]
    dsimp only
    cases hm2 : (lookupKey kMember fields).getD PyVal.none_ with
    | none_ => exact ⟨_, rfl⟩
    | bool b => exact ⟨_, rfl⟩
    | num n => exact ⟨_, rfl⟩
    | str s => exact ⟨_, rfl⟩
    | list xs => exact ⟨_, rfl⟩
    | dict f2 =>
      dsimp only [pyGet]
      cases hr2 : (lookupKey kRewards fields).getD PyVal.none_ with
      | none_ => exact ⟨_, rfl⟩
      | bool b => exact ⟨_, rfl⟩
      | num n => exact ⟨_, rfl⟩
      | str s => exact ⟨_, rfl⟩
      | list xs => exact ⟨_, rfl⟩
      | dict f3 =>
        dsimp only [pyGet]
        rw [hrr]
        exact ⟨_, rfl⟩
  · rw [pyGet_dict]
    dsimp only
    cases hm2 : (lookupKey kMember fields).getD PyVal.none_ with
    | none_ => exact ⟨_, rfl⟩
    | bool b => exact ⟨_, rfl⟩
    | num n => exact ⟨_, rfl⟩
    | str s => exact ⟨_, rfl⟩
    | list xs => exact ⟨_, rfl⟩
    | dict f2 =>
      dsimp only [pyGet]
      cases hr2 : (lookupKey kRewards fields).getD PyVal.none_ with
      | none_ => exact ⟨_, rfl⟩
      | bool b => exact ⟨_, rfl⟩
      | num n => exact ⟨_, rfl⟩
      | str s => exact ⟨_, rfl⟩
      | list xs => exact ⟨_, rfl⟩
      | dict f3 =>
        dsimp only [pyGet]
        rw [hrr0]
        exact ⟨_, rfl⟩

/-- Witness for C3 amended on the empty document, where `member` is absent. -/
theorem C3_intermediate_absence_raises_witness :
    lookupKey kMember ([] : List (String × PyVal)) = none ∧
    ∃ e, read_udpated_json_file (PyVal.dict []) = Except.error e :=
  ⟨rfl, C3_intermediate_absence_raises [] (Or.inl rfl)⟩

end MongoConv
